import Mathlib

/-!
Shallow embedding of the fastText model engine (this repository's
`src/model.cc` together with the older `Model` member functions that are
appended to the shell harness file). Vectors are total functions from
component index to real number, matrices are total functions from row index
to row vector; the C++ loops over `std::vector` buffers become `List.foldl`
or `Finset.range` sums over the relevant index range. Fallible code
(`Model::predict` throwing `std::invalid_argument`) returns `Except`.
-/

namespace FastText

noncomputable section

/-- A real vector, indexed by component. -/
abbrev Vec := Nat → ℝ

/-- A real matrix, indexed by row then component. -/
abbrev Mat := Nat → Nat → ℝ

/-- Vector.zero: `hidden.zero()` overwrites every component of the receiver
with 0; the prior contents are the argument, discarded. -/
def zeroVec (_v : Vec) : Vec := fun _ => 0

/-- Vector::addRow(A, i): componentwise `a_[j] += A.at(i, j)`. -/
def addRow (v : Vec) (m : Mat) (r : Nat) : Vec := fun i => v i + m r i

/-- Vector::addRow(A, i, a): componentwise `a_[j] += a * A.at(i, j)`. -/
def vecAddRow (v : Vec) (m : Mat) (r : Nat) (a : ℝ) : Vec :=
  fun i => v i + a * m r i

/-- Matrix::addVectorToRow(vec, i, a) (addRow in the older source):
row `i` of the matrix gains `a * vec`, other rows are untouched. -/
def matAddRow (m : Mat) (v : Vec) (r : Nat) (a : ℝ) : Mat :=
  fun r2 i => if r2 = r then m r2 i + a * v i else m r2 i

/-- Vector::mul(a): componentwise in-place scale by `a`. -/
def vecMul (v : Vec) (a : ℝ) : Vec := fun i => v i * a

/-- Matrix::dotRow(vec, i): dot product of `vec` with row `i`, over the
`dim` components that the buffers actually hold. -/
def dotRow (dim : Nat) (m : Mat) (v : Vec) (r : Nat) : ℝ :=
  ∑ i in Finset.range dim, v i * m r i

/-- Model::computeHidden (src/src/model.cc lines 45-53): zero the state's
hidden vector, accumulate the input-matrix row for every id of `input`,
then scale by `1 / input.size()`. The prior hidden contents `hidden0` are
passed in and discarded by the initial `hidden.zero()`. -/
def computeHidden (wi : Mat) (input : List Nat) (hidden0 : Vec) : Vec :=
  vecMul (input.foldl (fun h r => addRow h wi r) (zeroVec hidden0))
    (1 / (input.length : ℝ))

/-- Model::State (src/src/model.cc lines 21-27): per-worker scratch. `rng`
stands in for the seeded `std::minstd_rand`. -/
structure State where
  lossValue : ℝ
  nexamples : Nat
  hidden : Vec
  output : Vec
  grad : Vec
  rng : Nat

/-- Result of one `Loss::forward` call: the updated output matrix, the
gradient accumulated into the worker's buffer, and the scalar loss. -/
structure ForwardResult where
  wo : Mat
  grad : Vec
  loss : ℝ

/-- Shape of `Loss::forward(targets, targetIndex, state, lr, true)`. The
loss implementations live in `loss.cc`, which is not among the sources
here, so `update` is parameterized over the strategy: it receives the
output matrix, the (already zeroed) gradient buffer and the hidden vector
through `state`, and returns the mutations it made. -/
abbrev Forward := List Nat → Nat → ℝ → Mat → Vec → Vec → ForwardResult

/-- Model::update (src/src/model.cc lines 72-94): no-op on empty input;
otherwise compute hidden, zero the gradient buffer, run the loss forward
pass (which updates the output matrix and fills the gradient), record the
loss and bump the example counter, optionally normalize the gradient by
`1 / input.size()`, and scatter the gradient additively into every
input-matrix row listed in `input`. Returns (new wi, new wo, new state). -/
def update (forward : Forward) (normalizeGradient : Bool) (wi wo : Mat)
    (input targets : List Nat) (targetIndex : Nat) (lr : ℝ) (st : State) :
    Mat × Mat × State :=
  if input = [] then (wi, wo, st)
  else
    let hidden := computeHidden wi input st.hidden
    let grad0 := zeroVec st.grad
    let fr := forward targets targetIndex lr wo grad0 hidden
    let grad2 := if normalizeGradient then vecMul fr.grad (1 / (input.length : ℝ))
      else fr.grad
    let wi2 := input.foldl (fun m r => matAddRow m grad2 r 1) wi
    (wi2, fr.wo,
      { st with
        hidden := hidden
        grad := grad2
        lossValue := st.lossValue + fr.loss
        nexamples := st.nexamples + 1 })

/-- Error raised by Model::predict: `std::invalid_argument` with message
"k needs to be 1 or higher!". -/
inductive ModelError where
  | invalidArgument : ModelError

/-- Predictions heap entries: (score, id) pairs. -/
abbrev Predictions := List (ℝ × Nat)

/-- Shape of `Loss::predict(k, threshold, heap, state)` (body in the absent
`loss.cc`): fills the heap from the state after hidden is computed. -/
abbrev LossPredict := Nat → ℝ → Predictions → State → Predictions × State

/-- Shared tail of Model::predict once `k` is resolved: compute hidden into
the state, then delegate to the loss strategy. `heap.reserve(k + 1)` only
touches capacity, which has no observable counterpart here. -/
def predictBody (lp : LossPredict) (wi : Mat) (input : List Nat) (k : Nat)
    (threshold : ℝ) (heap : Predictions) (st : State) : Predictions × State :=
  lp k threshold heap { st with hidden := computeHidden wi input st.hidden }

/-- Modelled from the spec: the sentinel `Model::kUnlimitedPredictions`
meaning "all outputs" is declared in `model.h`, which is not among the
sources here; the conventional value -1 is used. -/
def kUnlimitedPredictions : Int := -1

/-- Model::predict (src/src/model.cc lines 55-70): the sentinel `k` is
replaced by the output-matrix row count `osz`; any other `k <= 0` raises
`std::invalid_argument` before anything is touched. -/
def predict (osz : Nat) (lp : LossPredict) (wi : Mat) (input : List Nat)
    (k : Int) (threshold : ℝ) (heap : Predictions) (st : State) :
    Except ModelError (Predictions × State) :=
  if k = kUnlimitedPredictions then
    Except.ok (predictBody lp wi input osz threshold heap st)
  else if k ≤ 0 then Except.error ModelError.invalidArgument
  else Except.ok (predictBody lp wi input k.toNat threshold heap st)

/-- Modelled from the spec: the sigmoid lookup-table bound `MAX_SIGMOID`
comes from the absent `model.h`; the fixed domain is `[-MAX_SIGMOID,
MAX_SIGMOID]` with the conventional bound 8. -/
def MAX_SIGMOID : ℝ := 8

/-- Modelled from the spec: the sigmoid table granularity
`SIGMOID_TABLE_SIZE` comes from the absent `model.h`; the conventional
value 512 is used. -/
def SIGMOID_TABLE_SIZE : Nat := 512

/-- Modelled from the spec: the table entries written by `initSigmoid`
(absent from the sources here) are true logistic-sigmoid values sampled on
the uniform grid over `[-MAX_SIGMOID, MAX_SIGMOID]`, entry `i` holding
`1 / (1 + exp (-(i * 2 * MAX_SIGMOID / SIGMOID_TABLE_SIZE - MAX_SIGMOID)))`. -/
def t_sigmoid (i : Nat) : ℝ :=
  1 / (1 + Real.exp (-((i : ℝ) * 2 * MAX_SIGMOID / (SIGMOID_TABLE_SIZE : ℝ)
    - MAX_SIGMOID)))

/-- Model::sigmoid (src/src/model.cc lines 100-109): clamp to 0 below
`-MAX_SIGMOID` and to 1 above `MAX_SIGMOID`; inside the domain, read the
table entry at index `int64_t((x + MAX_SIGMOID) * SIGMOID_TABLE_SIZE /
MAX_SIGMOID / 2)`. The cast truncates toward zero, which on the
nonnegative in-domain argument coincides with the floor taken here. -/
def sigmoid (x : ℝ) : ℝ :=
  if x < -MAX_SIGMOID then 0
  else if x > MAX_SIGMOID then 1
  else t_sigmoid (Int.toNat
    ⌊(x + MAX_SIGMOID) * (SIGMOID_TABLE_SIZE : ℝ) / MAX_SIGMOID / 2⌋)

/-- Spec-words definition, for comparison with `sigmoid`: the same table
read "with linear interpolation between table entries" - the value is
interpolated between the two adjacent entries around the fractional
index. -/
def sigmoidInterp (x : ℝ) : ℝ :=
  if x < -MAX_SIGMOID then 0
  else if x > MAX_SIGMOID then 1
  else
    let u := (x + MAX_SIGMOID) * (SIGMOID_TABLE_SIZE : ℝ) / MAX_SIGMOID / 2
    let i := Int.toNat ⌊u⌋
    t_sigmoid i + (u - (i : ℝ)) * (t_sigmoid (i + 1) - t_sigmoid i)

/-- Mutable members of the older `Model` class that the appended member
functions (`binaryLogistic`, `negativeSampling`, `hierarchicalSoftmax`)
read and write: the shared output matrix `wo_`, the scratch `hidden_` and
`grad_` vectors, and the negative-table cursor `negpos`. -/
structure OldState where
  wo : Mat
  hidden : Vec
  grad : Vec
  negpos : Nat

/-- Model::binaryLogistic (older source, appended to the harness file):
score the target row against the hidden vector through the sigmoid, set
`alpha = lr * (label - score)`, accumulate `alpha` times the (pre-update)
output row into the gradient buffer, add `alpha` times the hidden vector
into the output row, and return the binary log loss. -/
def binaryLogistic (dim : Nat) (target : Nat) (label : Bool) (lr : ℝ)
    (s : OldState) : OldState × ℝ :=
  let score := sigmoid (dotRow dim s.wo s.hidden target)
  let alpha := lr * ((if label then 1 else 0) - score)
  ({ s with
      grad := vecAddRow s.grad s.wo target alpha
      wo := matAddRow s.wo s.hidden target alpha },
    if label then -Real.log score else -Real.log (1 - score))

/-- Modelled from the spec: negative ids are drawn from a pre-built
frequency-weighted table by cycling a position through it and skipping
entries equal to the true target (the drawing routine `getNegative` is
absent from the sources here). Returns the drawn id and the advanced
cursor; when every table entry equals the target the C++ loop would not
terminate, so that unreachable case returns the inputs unchanged. -/
def getNegative (negatives : List Nat) (negpos target : Nat) : Nat × Nat :=
  match (List.range negatives.length).find?
      (fun k => negatives.getD ((negpos + k) % negatives.length) target
        != target) with
  | some k =>
      (negatives.getD ((negpos + k) % negatives.length) target,
        ((negpos + k) % negatives.length + 1) % negatives.length)
  | none => (target, negpos)

/-- Model::negativeSampling (older source, appended to the harness file):
zero the gradient buffer, then loop `n = 0 .. neg`: the `n = 0` iteration
is a positive binary-logistic step on the true target, every other
iteration draws a negative id and runs a negative step; losses are
summed. -/
def negativeSampling (dim neg : Nat) (negatives : List Nat) (target : Nat)
    (lr : ℝ) (s : OldState) : OldState × ℝ :=
  (List.range (neg + 1)).foldl
    (fun acc n =>
      if n = 0 then
        let b := binaryLogistic dim target true lr acc.1
        (b.1, acc.2 + b.2)
      else
        let d := getNegative negatives acc.1.negpos target
        let b := binaryLogistic dim d.1 false lr { acc.1 with negpos := d.2 }
        (b.1, acc.2 + b.2))
    ({ s with grad := zeroVec s.grad }, 0)

/-- Model::hierarchicalSoftmax (older source, appended to the harness
file): zero the gradient buffer, then walk the target's precomputed
root-to-leaf path, one binary-logistic step per internal node with the
target's code bit at that depth as the label; losses are summed. The C++
indexes `binaryCode[i]` unchecked for `i` below the path length; `getD`
models that read (callers guarantee the code is long enough). -/
def hierarchicalSoftmax (dim : Nat) (codes : Nat → List Bool)
    (paths : Nat → List Nat) (target : Nat) (lr : ℝ) (s : OldState) :
    OldState × ℝ :=
  let binaryCode := codes target
  let pathToRoot := paths target
  (List.range pathToRoot.length).foldl
    (fun acc i =>
      let b := binaryLogistic dim (pathToRoot.getD i 0)
        (binaryCode.getD i false) lr acc.1
      (b.1, acc.2 + b.2))
    ({ s with grad := zeroVec s.grad }, 0)

/-- Running maximum of the raw scores, exactly as the loop in
Model::computeOutputSoftmax computes it: start from `output[0]` and fold
`max` over all `osz` scores. -/
def softmaxMax (dim osz : Nat) (wo : Mat) (hidden : Vec) : ℝ :=
  (List.range osz).foldl (fun m i => max (dotRow dim wo hidden i) m)
    (dotRow dim wo hidden 0)

/-- Model::computeOutputSoftmax (older source, appended to the harness
file): score every output row against the hidden vector, subtract the
running maximum, exponentiate, and normalize by the accumulated sum. -/
def computeOutputSoftmax (dim osz : Nat) (wo : Mat) (hidden : Vec) : Vec :=
  fun i =>
    Real.exp (dotRow dim wo hidden i - softmaxMax dim osz wo hidden) /
      ∑ k in Finset.range osz,
        Real.exp (dotRow dim wo hidden k - softmaxMax dim osz wo hidden)

/-- Replay of a list of (target id, label) binary-logistic steps from a
starting state and loss accumulator, in list order. -/
def runSteps (dim : Nat) (lr : ℝ) (steps : List (Nat × Bool))
    (acc : OldState × ℝ) : OldState × ℝ :=
  steps.foldl
    (fun a st =>
      let b := binaryLogistic dim st.1 st.2 lr a.1
      (b.1, a.2 + b.2)) acc

/-- Per-step losses of a list of (target id, label) binary-logistic steps
replayed from a starting state, in list order. -/
def stepLosses (dim : Nat) (lr : ℝ) : List (Nat × Bool) → OldState → List ℝ
  | [], _ => []
  | st :: rest, s =>
      (binaryLogistic dim st.1 st.2 lr s).2 ::
        stepLosses dim lr rest (binaryLogistic dim st.1 st.2 lr s).1

/-- Accumulating rows of `wi` over a list is, componentwise, adding the sum
of the referenced row entries. -/
theorem foldl_addRow_apply (wi : Mat) (l : List Nat) (v : Vec) (i : Nat) :
    (l.foldl (fun h r => addRow h wi r) v) i =
      v i + ((l.map fun r => wi r i).sum) := by
  induction l generalizing v with
  | nil => simp
  | cons hd tl ih =>
      simp only [List.foldl_cons, List.map_cons, List.sum_cons, ih, addRow]
      ring

/-- Scattering a vector into the rows listed in `l` adds it to each row as
many times as that row id occurs in `l`. -/
theorem foldl_scatter_apply (l : List Nat) (m : Mat) (v : Vec) (r i : Nat) :
    (l.foldl (fun m2 x => matAddRow m2 v x 1) m) r i =
      m r i + (l.count r : ℝ) * v i := by
  induction l generalizing m with
  | nil => simp
  | cons hd tl ih =>
      simp only [List.foldl_cons, ih, matAddRow]
      by_cases hr : r = hd
      · subst hr
        simp only [if_pos rfl, List.count_cons_self]
        push_cast
        ring
      · rw [if_neg hr, List.count_cons_of_ne hr]

/-- Summing a mapped list splits into the contribution of one id, counted
with multiplicity, plus the contributions of all other ids. -/
theorem map_sum_count_split (l : List Nat) (f : Nat → ℝ) (a : Nat) :
    (l.map f).sum =
      (l.count a : ℝ) * f a + ((l.filter (fun r => r != a)).map f).sum := by
  induction l with
  | nil => simp
  | cons hd tl ih =>
      by_cases hh : hd = a
      · subst hh
        simp [List.count_cons_self, ih]
        ring
      · rw [List.count_cons_of_ne (fun he => hh he.symm)]
        have hb : (hd != a) = true := by simpa using hh
        simp [List.filter_cons, hb, ih]
        ring

/-- C1: for every non-empty list of input ids, `computeHidden` leaves the
hidden vector equal to the componentwise arithmetic mean of the referenced
input-matrix rows, independent of the hidden vector's prior contents. -/
theorem computeHidden_spec (wi : Mat) (input : List Nat) (h0 : Vec)
    (h : input ≠ []) :
    (∀ h1 : Vec, computeHidden wi input h0 = computeHidden wi input h1) ∧
    ∀ i, computeHidden wi input h0 i =
      ((input.map fun r => wi r i).sum) / (input.length : ℝ) := by
  refine ⟨fun h1 => rfl, fun i => ?_⟩
  simp only [computeHidden, vecMul, zeroVec, foldl_addRow_apply, zero_add]
  rw [mul_one_div]

/-- Witness for C1: with rows `wi r = (fun _ => r)`, the mean of rows 0 and
2 is the constant vector 1. -/
theorem computeHidden_spec_witness :
    computeHidden (fun r _ => (r : ℝ)) [0, 2] (fun _ => 5) 0 = 1 := by
  have h := (computeHidden_spec (fun r _ => (r : ℝ)) [0, 2] (fun _ => 5)
    (by decide)).2 0
  norm_num at h
  exact h

/-- C3: `update` with an empty input list returns immediately: the input
matrix, the output matrix and every field of the worker state are returned
unchanged, for every loss strategy, target list, target index and learning
rate; no error is signaled (the function is total). -/
theorem update_empty_noop (fwd : Forward) (ng : Bool) (wi wo : Mat)
    (targets : List Nat) (ti : Nat) (lr : ℝ) (st : State) :
    update fwd ng wi wo [] targets ti lr st = (wi, wo, st) := by
  simp [update]

/-- C9: the gradient accumulator is zeroed before the loss strategy runs,
so the outcome of `update` (and of the older `negativeSampling` and
`hierarchicalSoftmax` routines) is independent of whatever gradient a
previous call left in the worker state. -/
theorem grad_no_carry_spec :
    (∀ (fwd : Forward) (ng : Bool) (wi wo : Mat) (input targets : List Nat)
      (ti : Nat) (lr : ℝ) (st : State) (g g2 : Vec), input ≠ [] →
      update fwd ng wi wo input targets ti lr { st with grad := g } =
        update fwd ng wi wo input targets ti lr { st with grad := g2 }) ∧
    (∀ (dim neg : Nat) (negatives : List Nat) (target : Nat) (lr : ℝ)
      (s : OldState) (g g2 : Vec),
      negativeSampling dim neg negatives target lr { s with grad := g } =
        negativeSampling dim neg negatives target lr { s with grad := g2 }) ∧
    (∀ (dim : Nat) (codes : Nat → List Bool) (paths : Nat → List Nat)
      (target : Nat) (lr : ℝ) (s : OldState) (g g2 : Vec),
      hierarchicalSoftmax dim codes paths target lr { s with grad := g } =
        hierarchicalSoftmax dim codes paths target lr { s with grad := g2 }) := by
  refine ⟨fun fwd ng wi wo input targets ti lr st g g2 hne => ?_,
    fun dim neg negatives target lr s g g2 => ?_,
    fun dim codes paths target lr s g g2 => ?_⟩
  · unfold update
    rw [if_neg hne, if_neg hne]
    rfl
  · rfl
  · rfl

/-- Witness for C9: a concrete `update` call whose result is unaffected by
two different stale gradients. -/
theorem grad_no_carry_spec_witness :
    update (fun _ _ _ wo g _ => ⟨wo, g, 0⟩) false (fun _ _ => 0)
        (fun _ _ => 0) [0] [] 0 0
        { lossValue := 0, nexamples := 0, hidden := fun _ => 0,
          output := fun _ => 0, grad := fun _ => 1, rng := 0 } =
      update (fun _ _ _ wo g _ => ⟨wo, g, 0⟩) false (fun _ _ => 0)
        (fun _ _ => 0) [0] [] 0 0
        { lossValue := 0, nexamples := 0, hidden := fun _ => 0,
          output := fun _ => 0, grad := fun _ => 2, rng := 0 } :=
  grad_no_carry_spec.1 (fun _ _ _ wo g _ => ⟨wo, g, 0⟩) false (fun _ _ => 0)
    (fun _ _ => 0) [0] [] 0 0
    { lossValue := 0, nexamples := 0, hidden := fun _ => 0,
      output := fun _ => 0, grad := fun _ => 0, rng := 0 }
    (fun _ => 1) (fun _ => 2) (by decide)

/-- C10: an id occurring `n` times in the input list contributes its row
`n` times to the hidden-vector mean, and receives the (possibly
normalized) gradient `n` times during the scatter phase of `update`. -/
theorem duplicate_input_spec (fwd : Forward) (ng : Bool) (wi wo : Mat)
    (input targets : List Nat) (ti : Nat) (lr : ℝ) (st : State) (a : Nat)
    (h : input ≠ []) :
    (∀ i, computeHidden wi input st.hidden i =
      ((input.count a : ℝ) * wi a i +
        ((input.filter (fun r => r != a)).map fun r => wi r i).sum) /
        (input.length : ℝ)) ∧
    ∀ i, (update fwd ng wi wo input targets ti lr st).1 a i =
      wi a i +
        (input.count a : ℝ) *
          (update fwd ng wi wo input targets ti lr st).2.2.grad i := by
  constructor
  · intro i
    rw [(computeHidden_spec wi input st.hidden h).2 i,
      map_sum_count_split input (fun r => wi r i) a]
  · intro i
    simp only [update, if_neg h]
    exact foldl_scatter_apply input wi _ a i

/-- Witness for C10: with input bag [0, 0, 1] the id 0 contributes twice to
the mean, giving hidden component (2·0 + 1)/3. -/
theorem duplicate_input_spec_witness :
    computeHidden (fun r _ => (r : ℝ)) [0, 0, 1] (fun _ => 0) 0 = 1 / 3 := by
  have h := (duplicate_input_spec (fun _ _ _ wo g _ => ⟨wo, g, 0⟩) false
    (fun r _ => (r : ℝ)) (fun _ _ => 0) [0, 0, 1] [] 0 0
    { lossValue := 0, nexamples := 0, hidden := fun _ => 0,
      output := fun _ => 0, grad := fun _ => 0, rng := 0 } 0
    (by decide)).1 0
  norm_num at h
  simpa using h

/-- C2: the binary-logistic step scores the target row through the sigmoid,
sets `alpha = lr * (label - score)`, adds `alpha` times the pre-update
output row into the gradient buffer and `alpha` times the hidden vector
into the output row (other rows and the hidden vector untouched), and
returns the binary log loss; moreover within `update` the output matrix
returned by the loss forward pass is computed against the hidden vector of
the current call, before the gradient is scattered into the input matrix. -/
theorem binaryLogistic_spec :
    (∀ (dim target : Nat) (label : Bool) (lr : ℝ) (s : OldState),
      (binaryLogistic dim target label lr s).2 =
        (if label then -Real.log (sigmoid (dotRow dim s.wo s.hidden target))
          else -Real.log (1 - sigmoid (dotRow dim s.wo s.hidden target))) ∧
      (∀ i, (binaryLogistic dim target label lr s).1.grad i =
        s.grad i +
          lr * ((if label then 1 else 0) -
              sigmoid (dotRow dim s.wo s.hidden target)) * s.wo target i) ∧
      (∀ i, (binaryLogistic dim target label lr s).1.wo target i =
        s.wo target i +
          lr * ((if label then 1 else 0) -
              sigmoid (dotRow dim s.wo s.hidden target)) * s.hidden i) ∧
      (∀ r i, r ≠ target →
        (binaryLogistic dim target label lr s).1.wo r i = s.wo r i) ∧
      (binaryLogistic dim target label lr s).1.hidden = s.hidden) ∧
    (∀ (fwd : Forward) (ng : Bool) (wi wo : Mat) (input targets : List Nat)
      (ti : Nat) (lr : ℝ) (st : State), input ≠ [] →
      (update fwd ng wi wo input targets ti lr st).2.1 =
        (fwd targets ti lr wo (zeroVec st.grad)
          (computeHidden wi input st.hidden)).wo) := by
  constructor
  · intro dim target label lr s
    refine ⟨rfl, fun i => rfl, fun i => ?_, fun r i hr => ?_, rfl⟩
    · simp [binaryLogistic, matAddRow]
    · simp [binaryLogistic, matAddRow, hr]
  · intro fwd ng wi wo input targets ti lr st hne
    simp only [update, if_neg hne]

/-- Witness for C2: concrete instances of the pre-update gradient row rule,
the off-target frame rule and the ordering rule. -/
theorem binaryLogistic_spec_witness :
    ((binaryLogistic 1 0 true 1 ⟨fun _ _ => 1, fun _ => 1, fun _ => 0, 0⟩).1.wo
        1 0 = (fun _ _ => (1 : ℝ)) 1 0) ∧
    (update (fun _ _ _ wo g _ => ⟨wo, g, 0⟩) false (fun _ _ => 0)
        (fun _ _ => 3) [0] [] 0 0
        { lossValue := 0, nexamples := 0, hidden := fun _ => 0,
          output := fun _ => 0, grad := fun _ => 0, rng := 0 }).2.1 =
      ((fun _ _ _ (wo : Mat) (g : Vec) (_ : Vec) =>
          (⟨wo, g, 0⟩ : ForwardResult)) ([] : List Nat) 0 (0 : ℝ)
        (fun _ _ => 3)
        (zeroVec (fun _ => 0))
        (computeHidden (fun _ _ => 0) [0] (fun _ => 0))).wo :=
  ⟨(binaryLogistic_spec.1 1 0 true 1
      ⟨fun _ _ => 1, fun _ => 1, fun _ => 0, 0⟩).2.2.2.1 1 0 (by decide),
    binaryLogistic_spec.2 (fun _ _ _ wo g _ => ⟨wo, g, 0⟩) false
      (fun _ _ => 0) (fun _ _ => 3) [0] [] 0 0
      { lossValue := 0, nexamples := 0, hidden := fun _ => 0,
        output := fun _ => 0, grad := fun _ => 0, rng := 0 } (by decide)⟩

/-- Loss accumulated by a replay equals the starting accumulator plus the
sum of the per-step losses. -/
theorem runSteps_loss (dim : Nat) (lr : ℝ) (steps : List (Nat × Bool)) :
    ∀ (s : OldState) (a : ℝ),
      (runSteps dim lr steps (s, a)).2 =
        a + (stepLosses dim lr steps s).sum := by
  induction steps with
  | nil => intro s a; simp [runSteps, stepLosses]
  | cons st rest ih =>
      intro s a
      have hr : runSteps dim lr (st :: rest) (s, a) =
          runSteps dim lr rest ((binaryLogistic dim st.1 st.2 lr s).1,
            a + (binaryLogistic dim st.1 st.2 lr s).2) := rfl
      rw [hr, ih]
      simp [stepLosses]
      ring

/-- An index-driven fold of binary-logistic steps over two parallel lists
is the replay of their zip, provided the label list is long enough. -/
theorem foldRange_zip (dim : Nat) (lr : ℝ) :
    ∀ (p : List Nat) (c : List Bool) (s : OldState) (a : ℝ),
      p.length ≤ c.length →
      (List.range p.length).foldl
        (fun acc i =>
          let b := binaryLogistic dim (p.getD i 0) (c.getD i false) lr acc.1
          (b.1, acc.2 + b.2)) (s, a) =
        runSteps dim lr (p.zip c) (s, a) := by
  intro p
  induction p with
  | nil => intro c s a h; simp [runSteps]
  | cons hd tl ih =>
      intro c s a h
      cases c with
      | nil => simp at h
      | cons chd ctl =>
          have h2 : tl.length ≤ ctl.length := by simpa using h
          rw [List.length_cons, List.range_succ_eq_map, List.zip_cons_cons]
          have hrs : runSteps dim lr ((hd, chd) :: tl.zip ctl) (s, a) =
              runSteps dim lr (tl.zip ctl)
                ((binaryLogistic dim hd chd lr s).1,
                  a + (binaryLogistic dim hd chd lr s).2) := rfl
          rw [hrs, ← ih ctl _ _ h2]
          simp only [List.foldl_cons, List.foldl_map, List.getD_cons_zero,
            List.getD_cons_succ]

/-- C5: for a target with precomputed code bits and root-to-leaf path,
hierarchical softmax replays exactly one binary-logistic step per path
node, in path order, with the target's code bit at that depth as the
label, and its loss is the sum of the per-node losses. -/
theorem hierarchicalSoftmax_spec (dim : Nat) (codes : Nat → List Bool)
    (paths : Nat → List Nat) (target : Nat) (lr : ℝ) (s : OldState)
    (hlen : (paths target).length ≤ (codes target).length) :
    hierarchicalSoftmax dim codes paths target lr s =
      runSteps dim lr ((paths target).zip (codes target))
        ({ s with grad := zeroVec s.grad }, 0) ∧
    (hierarchicalSoftmax dim codes paths target lr s).2 =
      (stepLosses dim lr ((paths target).zip (codes target))
        { s with grad := zeroVec s.grad }).sum := by
  have h1 : hierarchicalSoftmax dim codes paths target lr s =
      runSteps dim lr ((paths target).zip (codes target))
        ({ s with grad := zeroVec s.grad }, 0) :=
    foldRange_zip dim lr (paths target) (codes target) _ 0 hlen
  refine ⟨h1, ?_⟩
  rw [h1, runSteps_loss]
  ring

/-- Witness for C5: a two-node path with code bits [true, false] replays as
the zipped step list. -/
theorem hierarchicalSoftmax_spec_witness :
    hierarchicalSoftmax 1 (fun _ => [true, false]) (fun _ => [3, 4]) 0 1
        ⟨fun _ _ => 1, fun _ => 1, fun _ => 2, 0⟩ =
      runSteps 1 1 ([3, 4].zip [true, false])
        ({ (⟨fun _ _ => 1, fun _ => 1, fun _ => 2, 0⟩ : OldState) with
          grad := zeroVec (fun _ => 2) }, 0) :=
  (hierarchicalSoftmax_spec 1 (fun _ => [true, false]) (fun _ => [3, 4]) 0 1
    ⟨fun _ _ => 1, fun _ => 1, fun _ => 2, 0⟩ (by decide)).1

/-- Cycling a cursor modulo the table length reaches every position. -/
theorem cycle_hits (len negpos j : Nat) (hj : j < len) :
    ∃ k, k < len ∧ (negpos + k) % len = j := by
  have hlen : 0 < len := Nat.lt_of_le_of_lt (Nat.zero_le j) hj
  have hr : negpos % len < len := Nat.mod_lt _ hlen
  refine ⟨(j + len - negpos % len) % len, Nat.mod_lt _ hlen, ?_⟩
  rw [← Nat.mod_add_mod, Nat.add_mod_mod]
  have he : negpos % len + (j + len - negpos % len) = j + len := by omega
  rw [he, Nat.add_mod_right, Nat.mod_eq_of_lt hj]

/-- When the table holds any non-target entry, the drawn negative id is a
table entry different from the target. -/
theorem getNegative_spec (negatives : List Nat) (negpos target : Nat)
    (hex : ∃ x ∈ negatives, x ≠ target) :
    (getNegative negatives negpos target).1 ∈ negatives ∧
      (getNegative negatives negpos target).1 ≠ target := by
  obtain ⟨x, hx, hxt⟩ := hex
  obtain ⟨j, hj, hxj⟩ := List.mem_iff_getElem.1 hx
  obtain ⟨k, hk, hkj⟩ := cycle_hits negatives.length negpos j hj
  have hpk : (negatives.getD ((negpos + k) % negatives.length) target
      != target) = true := by
    rw [hkj, List.getD_eq_getElem negatives target hj, hxj]
    simpa using hxt
  have hfind : ((List.range negatives.length).find?
      (fun k => negatives.getD ((negpos + k) % negatives.length) target
        != target)).isSome := by
    rw [List.find?_isSome]
    exact ⟨k, List.mem_range.2 hk, hpk⟩
  obtain ⟨k2, hk2⟩ := Option.isSome_iff_exists.1 hfind
  have hp2 := List.find?_some hk2
  have hlen : 0 < negatives.length := Nat.lt_of_le_of_lt (Nat.zero_le j) hj
  have hlt : (negpos + k2) % negatives.length < negatives.length :=
    Nat.mod_lt _ hlen
  have hval : getNegative negatives negpos target =
      (negatives.getD ((negpos + k2) % negatives.length) target,
        ((negpos + k2) % negatives.length + 1) % negatives.length) := by
    unfold getNegative
    rw [hk2]
  rw [hval]
  constructor
  · rw [List.getD_eq_getElem negatives target hlt]
    exact List.getElem_mem hlt
  · simpa using hp2

/-- Overriding the negative-table cursor is invisible to a binary-logistic
step: the step reads and writes only the matrix and vector fields. -/
theorem binaryLogistic_negpos (dim t : Nat) (l : Bool) (lr : ℝ)
    (s : OldState) (p : Nat) :
    binaryLogistic dim t l lr { s with negpos := p } =
      ({ (binaryLogistic dim t l lr s).1 with negpos := p },
        (binaryLogistic dim t l lr s).2) := rfl

/-- Overriding the negative-table cursor commutes with replaying any list
of binary-logistic steps. -/
theorem runSteps_negpos (dim : Nat) (lr : ℝ) (steps : List (Nat × Bool)) :
    ∀ (s : OldState) (a : ℝ) (p : Nat),
      runSteps dim lr steps ({ s with negpos := p }, a) =
        ({ (runSteps dim lr steps (s, a)).1 with negpos := p },
          (runSteps dim lr steps (s, a)).2) := by
  induction steps with
  | nil => intro s a p; rfl
  | cons st rest ih =>
      intro s a p
      show runSteps dim lr rest
          ((binaryLogistic dim st.1 st.2 lr { s with negpos := p }).1,
            a + (binaryLogistic dim st.1 st.2 lr { s with negpos := p }).2)
        = _
      rw [binaryLogistic_negpos]
      show runSteps dim lr rest
          ({ (binaryLogistic dim st.1 st.2 lr s).1 with negpos := p },
            a + (binaryLogistic dim st.1 st.2 lr s).2) = _
      rw [ih]
      rfl

/-- Every iteration of the negative-sampling loop other than `n = 0` draws
a table id distinct from the target and replays a negative step: the whole
tail of the loop is the replay of some list of drawn ids, up to the final
cursor position. -/
theorem nsLoop_spec (dim : Nat) (negatives : List Nat) (target : Nat)
    (lr : ℝ) (hex : ∃ x ∈ negatives, x ≠ target) :
    ∀ (L : List Nat), (∀ n ∈ L, n ≠ 0) → ∀ (s : OldState) (a : ℝ),
      ∃ (ids : List Nat) (np : Nat),
        ids.length = L.length ∧
        (∀ id ∈ ids, id ∈ negatives ∧ id ≠ target) ∧
        L.foldl
          (fun acc n =>
            if n = 0 then
              let b := binaryLogistic dim target true lr acc.1
              (b.1, acc.2 + b.2)
            else
              let d := getNegative negatives acc.1.negpos target
              let b := binaryLogistic dim d.1 false lr
                { acc.1 with negpos := d.2 }
              (b.1, acc.2 + b.2)) (s, a) =
          ({ (runSteps dim lr (ids.map fun id => (id, false)) (s, a)).1 with
              negpos := np },
            (runSteps dim lr (ids.map fun id => (id, false)) (s, a)).2) := by
  intro L
  induction L with
  | nil =>
      intro _ s a
      exact ⟨[], s.negpos, rfl, by simp, rfl⟩
  | cons n L2 ih =>
      intro hL s a
      have hn : n ≠ 0 := hL n (List.mem_cons_self n L2)
      have hL2 : ∀ m ∈ L2, m ≠ 0 := fun m hm => hL m (List.mem_cons_of_mem n hm)
      obtain ⟨ids2, np2, hlen2, hmem2, heq2⟩ := ih hL2
        { (binaryLogistic dim (getNegative negatives s.negpos target).1 false
            lr s).1 with negpos := (getNegative negatives s.negpos target).2 }
        (a + (binaryLogistic dim (getNegative negatives s.negpos target).1
          false lr s).2)
      refine ⟨(getNegative negatives s.negpos target).1 :: ids2, np2,
        by simpa using hlen2, ?_, ?_⟩
      · intro id hid
        rcases List.mem_cons.1 hid with h1 | h1
        · rw [h1]; exact getNegative_spec negatives s.negpos target hex
        · exact hmem2 id h1
      · rw [runSteps_negpos] at heq2
        rw [List.foldl_cons, if_neg hn]
        exact heq2

/-- C4: negative-sampling forward for a true target runs one positive
binary-logistic step on the target plus `neg` negative steps on ids drawn
from the table, none of which is the true label, and returns the sum of
the individual step losses. -/
theorem negativeSampling_spec (dim neg : Nat) (negatives : List Nat)
    (target : Nat) (lr : ℝ) (s : OldState)
    (hex : ∃ x ∈ negatives, x ≠ target) :
    ∃ (negIds : List Nat) (np : Nat),
      negIds.length = neg ∧
      (∀ id ∈ negIds, id ∈ negatives ∧ id ≠ target) ∧
      negativeSampling dim neg negatives target lr s =
        ({ (runSteps dim lr
            ((target, true) :: negIds.map fun id => (id, false))
            ({ s with grad := zeroVec s.grad }, 0)).1 with negpos := np },
          (runSteps dim lr
            ((target, true) :: negIds.map fun id => (id, false))
            ({ s with grad := zeroVec s.grad }, 0)).2) ∧
      (negativeSampling dim neg negatives target lr s).2 =
        (stepLosses dim lr
          ((target, true) :: negIds.map fun id => (id, false))
          { s with grad := zeroVec s.grad }).sum := by
  have hmem : ∀ n ∈ (List.range neg).map Nat.succ, n ≠ 0 := by
    intro n hn
    obtain ⟨m, _, hm⟩ := List.mem_map.1 hn
    omega
  obtain ⟨ids, np, hlen, hmemids, heq⟩ :=
    nsLoop_spec dim negatives target lr hex ((List.range neg).map Nat.succ)
      hmem
      (binaryLogistic dim target true lr
        { s with grad := zeroVec s.grad }).1
      (0 + (binaryLogistic dim target true lr
        { s with grad := zeroVec s.grad }).2)
  have hstep : negativeSampling dim neg negatives target lr s =
      ((List.range neg).map Nat.succ).foldl
        (fun acc n =>
          if n = 0 then
            let b := binaryLogistic dim target true lr acc.1
            (b.1, acc.2 + b.2)
          else
            let d := getNegative negatives acc.1.negpos target
            let b := binaryLogistic dim d.1 false lr
              { acc.1 with negpos := d.2 }
            (b.1, acc.2 + b.2))
        ((binaryLogistic dim target true lr
            { s with grad := zeroVec s.grad }).1,
          0 + (binaryLogistic dim target true lr
            { s with grad := zeroVec s.grad }).2) := by
    unfold negativeSampling
    rw [List.range_succ_eq_map, List.foldl_cons]
    rfl
  refine ⟨ids, np, by simpa using hlen, hmemids, ?_, ?_⟩
  · rw [hstep, heq]
    rfl
  · rw [hstep, heq]
    show (runSteps dim lr (ids.map fun id => (id, false))
        ((binaryLogistic dim target true lr
          { s with grad := zeroVec s.grad }).1,
          0 + (binaryLogistic dim target true lr
          { s with grad := zeroVec s.grad }).2)).2 = _
    have hfull : runSteps dim lr
        ((target, true) :: ids.map fun id => (id, false))
        ({ s with grad := zeroVec s.grad }, 0) =
        runSteps dim lr (ids.map fun id => (id, false))
          ((binaryLogistic dim target true lr
            { s with grad := zeroVec s.grad }).1,
            0 + (binaryLogistic dim target true lr
            { s with grad := zeroVec s.grad }).2) := rfl
    rw [← hfull, runSteps_loss]
    ring

/-- Witness for C4: with table [5] and true target 3, the loop draws only
the id 5 for its negative steps. -/
theorem negativeSampling_spec_witness :
    (∃ x ∈ [5], x ≠ 3) ∧
    (∃ (negIds : List Nat) (np : Nat),
      negIds.length = 1 ∧
      (∀ id ∈ negIds, id ∈ [5] ∧ id ≠ 3) ∧
      negativeSampling 1 1 [5] 3 1 ⟨fun _ _ => 1, fun _ => 1, fun _ => 2, 0⟩ =
        ({ (runSteps 1 1 ((3, true) :: negIds.map fun id => (id, false))
            ({ (⟨fun _ _ => 1, fun _ => 1, fun _ => 2, 0⟩ : OldState) with
              grad := zeroVec (fun _ => 2) }, 0)).1 with negpos := np },
          (runSteps 1 1 ((3, true) :: negIds.map fun id => (id, false))
            ({ (⟨fun _ _ => 1, fun _ => 1, fun _ => 2, 0⟩ : OldState) with
              grad := zeroVec (fun _ => 2) }, 0)).2) ∧
      (negativeSampling 1 1 [5] 3 1
          ⟨fun _ _ => 1, fun _ => 1, fun _ => 2, 0⟩).2 =
        (stepLosses 1 1 ((3, true) :: negIds.map fun id => (id, false))
          { (⟨fun _ _ => 1, fun _ => 1, fun _ => 2, 0⟩ : OldState) with
            grad := zeroVec (fun _ => 2) }).sum) :=
  ⟨by decide,
    negativeSampling_spec 1 1 [5] 3 1
      ⟨fun _ _ => 1, fun _ => 1, fun _ => 2, 0⟩ (by decide)⟩

/-- A running-max fold never goes below its seed. -/
theorem foldl_max_le_self (f : Nat → ℝ) (l : List Nat) :
    ∀ a : ℝ, a ≤ l.foldl (fun m i => max (f i) m) a := by
  induction l with
  | nil => intro a; simp
  | cons hd tl ih =>
      intro a
      calc a ≤ max (f hd) a := le_max_right _ _
        _ ≤ _ := ih _

/-- A running-max fold dominates every scanned value. -/
theorem foldl_max_ge (f : Nat → ℝ) (l : List Nat) :
    ∀ a : ℝ, ∀ x ∈ l, f x ≤ l.foldl (fun m i => max (f i) m) a := by
  induction l with
  | nil => intro a x hx; simp at hx
  | cons hd tl ih =>
      intro a x hx
      rcases List.mem_cons.1 hx with h | h
      · subst h
        calc f x ≤ max (f x) a := le_max_left _ _
          _ ≤ _ := foldl_max_le_self f tl _
      · exact ih _ x h

/-- A running-max fold returns its seed or one of the scanned values. -/
theorem foldl_max_mem (f : Nat → ℝ) (l : List Nat) :
    ∀ a : ℝ, l.foldl (fun m i => max (f i) m) a = a ∨
      ∃ x ∈ l, l.foldl (fun m i => max (f i) m) a = f x := by
  induction l with
  | nil => intro a; left; rfl
  | cons hd tl ih =>
      intro a
      have hstep : (hd :: tl).foldl (fun m i => max (f i) m) a =
          tl.foldl (fun m i => max (f i) m) (max (f hd) a) := rfl
      rcases ih (max (f hd) a) with h | ⟨x, hx, hfx⟩
      · rcases le_total (f hd) a with hle | hle
        · left
          rw [hstep, h, max_eq_right hle]
        · right
          exact ⟨hd, List.mem_cons_self _ _, by rw [hstep, h, max_eq_left hle]⟩
      · right
        exact ⟨x, List.mem_cons_of_mem _ hx, by rw [hstep, hfx]⟩

/-- C6: the full-softmax output is the max-subtracted normalized
exponential of the raw scores: the subtracted constant is the true maximum
of the scores (the fold dominates every score and is attained), every
entry lies in [0, 1], and the entries sum to exactly 1, for arbitrary
finite scores. -/
theorem computeOutputSoftmax_spec (dim osz : Nat) (wo : Mat) (hidden : Vec)
    (hosz : 0 < osz) :
    (∑ i in Finset.range osz, computeOutputSoftmax dim osz wo hidden i) = 1 ∧
    (∀ i, i < osz → 0 ≤ computeOutputSoftmax dim osz wo hidden i ∧
      computeOutputSoftmax dim osz wo hidden i ≤ 1) ∧
    (∀ i, i < osz →
      dotRow dim wo hidden i ≤ softmaxMax dim osz wo hidden) ∧
    (∃ i, i < osz ∧
      softmaxMax dim osz wo hidden = dotRow dim wo hidden i) := by
  have hz : 0 < ∑ k in Finset.range osz,
      Real.exp (dotRow dim wo hidden k - softmaxMax dim osz wo hidden) :=
    Finset.sum_pos (fun k _ => Real.exp_pos _)
      (Finset.nonempty_range_iff.2 (Nat.pos_iff_ne_zero.1 hosz))
  refine ⟨?_, fun i hi => ⟨?_, ?_⟩, fun i hi => ?_, ?_⟩
  · have hpt : (∑ i in Finset.range osz,
        computeOutputSoftmax dim osz wo hidden i) =
        ∑ i in Finset.range osz,
          Real.exp (dotRow dim wo hidden i - softmaxMax dim osz wo hidden) /
            (∑ k in Finset.range osz,
              Real.exp (dotRow dim wo hidden k -
                softmaxMax dim osz wo hidden)) :=
      Finset.sum_congr rfl (fun i _ => rfl)
    rw [hpt, ← Finset.sum_div]
    exact div_self (ne_of_gt hz)
  · exact div_nonneg (Real.exp_pos _).le hz.le
  · rw [show computeOutputSoftmax dim osz wo hidden i =
        Real.exp (dotRow dim wo hidden i - softmaxMax dim osz wo hidden) /
          (∑ k in Finset.range osz,
            Real.exp (dotRow dim wo hidden k - softmaxMax dim osz wo hidden))
      from rfl, div_le_one hz]
    rw [← Finset.sum_erase_add (Finset.range osz)
      (fun k => Real.exp (dotRow dim wo hidden k - softmaxMax dim osz wo hidden))
      (Finset.mem_range.2 hi)]
    have h0 : 0 ≤ ∑ x in (Finset.range osz).erase i,
        Real.exp (dotRow dim wo hidden x - softmaxMax dim osz wo hidden) :=
      Finset.sum_nonneg (fun k _ => (Real.exp_pos _).le)
    linarith
  · exact foldl_max_ge (fun k => dotRow dim wo hidden k) (List.range osz)
      (dotRow dim wo hidden 0) i (List.mem_range.2 hi)
  · rcases foldl_max_mem (fun k => dotRow dim wo hidden k) (List.range osz)
        (dotRow dim wo hidden 0) with h | ⟨x, hx, hfx⟩
    · exact ⟨0, hosz, h⟩
    · exact ⟨x, List.mem_range.1 hx, hfx⟩

/-- Witness for C6: a one-row output matrix of zero scores yields the
softmax vector summing to 1. -/
theorem computeOutputSoftmax_spec_witness :
    (∑ i in Finset.range 1,
      computeOutputSoftmax 1 1 (fun _ _ => 0) (fun _ => 0) i) = 1 :=
  (computeOutputSoftmax_spec 1 1 (fun _ _ => 0) (fun _ => 0) (by decide)).1

/-- C8: `predict` raises the invalid-argument condition for every
non-positive `k` other than the sentinel, returning an error and hence
touching no state, heap or matrix; and with the sentinel it behaves
exactly as if `k` were the output-matrix row count. -/
theorem predict_k_spec (osz : Nat) (lp : LossPredict) (wi : Mat)
    (input : List Nat) (threshold : ℝ) (heap : Predictions) (st : State)
    (k : Int) (hk : k ≤ 0) (hks : k ≠ kUnlimitedPredictions)
    (hosz : 0 < osz) :
    predict osz lp wi input k threshold heap st =
      Except.error ModelError.invalidArgument ∧
    predict osz lp wi input kUnlimitedPredictions threshold heap st =
      predict osz lp wi input (osz : Int) threshold heap st := by
  constructor
  · unfold predict
    rw [if_neg hks, if_pos hk]
  · unfold predict
    have h1 : ¬((osz : Int) = kUnlimitedPredictions) := by
      unfold kUnlimitedPredictions
      omega
    have h2 : ¬((osz : Int) ≤ 0) := by omega
    rw [if_pos rfl, if_neg h1, if_neg h2, Int.toNat_natCast]

/-- Witness for C8: `k = 0` with output size 1 is rejected with the
invalid-argument error. -/
theorem predict_k_spec_witness :
    predict 1 (fun _ _ h s => (h, s)) (fun _ _ => 0) [] 0 0 []
        { lossValue := 0, nexamples := 0, hidden := fun _ => 0,
          output := fun _ => 0, grad := fun _ => 0, rng := 0 } =
      Except.error ModelError.invalidArgument :=
  (predict_k_spec 1 (fun _ _ h s => (h, s)) (fun _ _ => 0) [] 0 []
    { lossValue := 0, nexamples := 0, hidden := fun _ => 0,
      output := fun _ => 0, grad := fun _ => 0, rng := 0 } 0
    (by decide) (by decide) (by decide)).1

/-- The logistic curve sampled by the table is monotone. -/
theorem logistic_mono {a b : ℝ} (h : a ≤ b) :
    1 / (1 + Real.exp (-a)) ≤ 1 / (1 + Real.exp (-b)) := by
  have h1 : (0 : ℝ) < 1 + Real.exp (-b) := by positivity
  have h2 : 1 + Real.exp (-b) ≤ 1 + Real.exp (-a) := by
    have := Real.exp_le_exp.2 (neg_le_neg h)
    linarith
  exact one_div_le_one_div_of_le h1 h2

/-- Table entries are nondecreasing in the index. -/
theorem t_sigmoid_mono {i j : Nat} (h : i ≤ j) :
    t_sigmoid i ≤ t_sigmoid j := by
  unfold t_sigmoid
  apply logistic_mono
  have hij : (i : ℝ) ≤ (j : ℝ) := Nat.cast_le.2 h
  simp only [MAX_SIGMOID, SIGMOID_TABLE_SIZE]
  push_cast
  linarith

/-- Table entries are nonnegative. -/
theorem t_sigmoid_nonneg (i : Nat) : 0 ≤ t_sigmoid i := by
  unfold t_sigmoid
  positivity

/-- Table entries are at most one. -/
theorem t_sigmoid_le_one (i : Nat) : t_sigmoid i ≤ 1 := by
  unfold t_sigmoid
  rw [div_le_one (by positivity)]
  have := Real.exp_pos (-((i : ℝ) * 2 * MAX_SIGMOID / (SIGMOID_TABLE_SIZE : ℝ)
    - MAX_SIGMOID))
  linarith

/-- The sigmoid lookup stays in [0, 1]. -/
theorem sigmoid_nonneg (x : ℝ) : 0 ≤ sigmoid x := by
  unfold sigmoid
  split_ifs
  · norm_num
  · norm_num
  · exact t_sigmoid_nonneg _

/-- The sigmoid lookup never exceeds one. -/
theorem sigmoid_le_one (x : ℝ) : sigmoid x ≤ 1 := by
  unfold sigmoid
  split_ifs
  · norm_num
  · norm_num
  · exact t_sigmoid_le_one _

/-- In-domain arguments read the table at the truncated index. -/
theorem sigmoid_of_in_domain {x : ℝ} (h1 : ¬x < -MAX_SIGMOID)
    (h2 : ¬x > MAX_SIGMOID) :
    sigmoid x = t_sigmoid (Int.toNat
      ⌊(x + MAX_SIGMOID) * (SIGMOID_TABLE_SIZE : ℝ) / MAX_SIGMOID / 2⌋) := by
  unfold sigmoid
  rw [if_neg h1, if_neg h2]

/-- The table index is nondecreasing in the argument. -/
theorem sigmoid_index_mono {x y : ℝ} (h : x ≤ y) :
    Int.toNat ⌊(x + MAX_SIGMOID) * (SIGMOID_TABLE_SIZE : ℝ) /
      MAX_SIGMOID / 2⌋ ≤
    Int.toNat ⌊(y + MAX_SIGMOID) * (SIGMOID_TABLE_SIZE : ℝ) /
      MAX_SIGMOID / 2⌋ := by
  apply Int.toNat_le_toNat
  apply Int.floor_le_floor
  simp only [MAX_SIGMOID, SIGMOID_TABLE_SIZE]
  push_cast
  linarith

/-- The sigmoid lookup is monotone nondecreasing. -/
theorem sigmoid_monotone : Monotone sigmoid := by
  intro x y hxy
  by_cases hx1 : x < -MAX_SIGMOID
  · rw [show sigmoid x = 0 from by unfold sigmoid; rw [if_pos hx1]]
    exact sigmoid_nonneg y
  · by_cases hx2 : x > MAX_SIGMOID
    · have hy2 : y > MAX_SIGMOID := lt_of_lt_of_le hx2 hxy
      have hy1 : ¬y < -MAX_SIGMOID := by
        intro hc
        simp only [MAX_SIGMOID] at hy2 hc
        linarith
      rw [show sigmoid x = 1 from by
          unfold sigmoid; rw [if_neg hx1, if_pos hx2],
        show sigmoid y = 1 from by
          unfold sigmoid; rw [if_neg hy1, if_pos hy2]]
    · by_cases hy2 : y > MAX_SIGMOID
      · rw [show sigmoid y = 1 from by
            unfold sigmoid
            rw [if_neg (show ¬y < -MAX_SIGMOID by
              intro hc
              simp only [MAX_SIGMOID] at hy2 hc
              linarith), if_pos hy2]]
        exact sigmoid_le_one x
      · have hy1 : ¬y < -MAX_SIGMOID := fun hc =>
          hx1 (lt_of_le_of_lt hxy hc)
        rw [sigmoid_of_in_domain hx1 hx2, sigmoid_of_in_domain hy1 hy2]
        exact t_sigmoid_mono (sigmoid_index_mono hxy)

/-- The table entry at the midpoint index is exactly one half. -/
theorem sigmoid_zero : sigmoid 0 = 1 / 2 := by
  have h1 : ¬(0 : ℝ) < -MAX_SIGMOID := by norm_num [MAX_SIGMOID]
  have h2 : ¬(0 : ℝ) > MAX_SIGMOID := by norm_num [MAX_SIGMOID]
  rw [sigmoid_of_in_domain h1 h2]
  have hidx : ((0 : ℝ) + MAX_SIGMOID) * (SIGMOID_TABLE_SIZE : ℝ) /
      MAX_SIGMOID / 2 = 256 := by
    norm_num [MAX_SIGMOID, SIGMOID_TABLE_SIZE]
  rw [hidx]
  have hfl : ⌊(256 : ℝ)⌋ = 256 := by
    rw [Int.floor_eq_iff]
    norm_num
  rw [hfl, show (256 : ℤ).toNat = 256 from rfl]
  norm_num [t_sigmoid, MAX_SIGMOID, SIGMOID_TABLE_SIZE, Real.exp_zero]

/-- Counterexample for C7: inside the domain the code reads the table entry
at the truncated index with no interpolation, so at `x = 1/64` (whose
fractional index is 256.5) the code returns the entry 256 while the
interpolating reading of the spec returns strictly more. -/
theorem sigmoid_interp_counterexample :
    sigmoid (1 / 64) ≠ sigmoidInterp (1 / 64) := by
  have h1 : ¬(1 / 64 : ℝ) < -MAX_SIGMOID := by norm_num [MAX_SIGMOID]
  have h2 : ¬(1 / 64 : ℝ) > MAX_SIGMOID := by norm_num [MAX_SIGMOID]
  have hu : ((1 / 64 : ℝ) + MAX_SIGMOID) * (SIGMOID_TABLE_SIZE : ℝ) /
      MAX_SIGMOID / 2 = 513 / 2 := by
    norm_num [MAX_SIGMOID, SIGMOID_TABLE_SIZE]
  have hfl : ⌊(513 / 2 : ℝ)⌋ = 256 := by
    rw [Int.floor_eq_iff]
    norm_num
  have hsig : sigmoid (1 / 64) = t_sigmoid 256 := by
    rw [sigmoid_of_in_domain h1 h2, hu, hfl]
    rfl
  have hint : sigmoidInterp (1 / 64) =
      t_sigmoid 256 + (513 / 2 - 256) * (t_sigmoid 257 - t_sigmoid 256) := by
    unfold sigmoidInterp
    rw [if_neg h1, if_neg h2]
    simp only [hu, hfl, show (256 : ℤ).toNat = 256 from rfl]
    norm_num
  have h256 : t_sigmoid 256 = 1 / 2 := by
    norm_num [t_sigmoid, MAX_SIGMOID, SIGMOID_TABLE_SIZE, Real.exp_zero]
  have h257 : t_sigmoid 257 = 1 / (1 + Real.exp (-(1 / 32))) := by
    norm_num [t_sigmoid, MAX_SIGMOID, SIGMOID_TABLE_SIZE]
  have hexp : Real.exp (-(1 / 32 : ℝ)) < 1 := by
    have h := Real.exp_lt_exp.2 (show -(1 / 32 : ℝ) < 0 by norm_num)
    rwa [Real.exp_zero] at h
  have hlt : t_sigmoid 256 < t_sigmoid 257 := by
    rw [h256, h257]
    have hpos : 0 < 1 + Real.exp (-(1 / 32 : ℝ)) := by positivity
    rw [lt_div_iff₀ hpos]
    linarith
  rw [hsig, hint]
  intro hcontra
  nlinarith [hlt]

/-- C7 (amended): `sigmoid` clamps exactly to 0 below `-MAX_SIGMOID` and to
1 above `MAX_SIGMOID`; inside the domain it returns the precomputed table
entry at the truncated index, with no interpolation between entries; the
resulting function is monotonically nondecreasing with `sigmoid 0 = 1/2`. -/
theorem sigmoid_clamp_mono_spec :
    (∀ x : ℝ, x < -MAX_SIGMOID → sigmoid x = 0) ∧
    (∀ x : ℝ, MAX_SIGMOID < x → sigmoid x = 1) ∧
    (∀ x : ℝ, ¬x < -MAX_SIGMOID → ¬x > MAX_SIGMOID →
      sigmoid x = t_sigmoid (Int.toNat
        ⌊(x + MAX_SIGMOID) * (SIGMOID_TABLE_SIZE : ℝ) /
          MAX_SIGMOID / 2⌋)) ∧
    sigmoid 0 = 1 / 2 ∧
    Monotone sigmoid := by
  refine ⟨fun x hx => ?_, fun x hx => ?_,
    fun x h1 h2 => sigmoid_of_in_domain h1 h2, sigmoid_zero,
    sigmoid_monotone⟩
  · unfold sigmoid
    rw [if_pos hx]
  · unfold sigmoid
    rw [if_neg (show ¬x < -MAX_SIGMOID by
      intro hc
      simp only [MAX_SIGMOID] at hx hc
      linarith), if_pos hx]

/-- Witness for C7 (amended): concrete clamping at -9 and 9, and
monotonicity between -1 and 1. -/
theorem sigmoid_clamp_mono_spec_witness :
    sigmoid (-9) = 0 ∧ sigmoid 9 = 1 ∧ sigmoid (-1) ≤ sigmoid 1 :=
  ⟨sigmoid_clamp_mono_spec.1 (-9) (by norm_num [MAX_SIGMOID]),
    sigmoid_clamp_mono_spec.2.1 9 (by norm_num [MAX_SIGMOID]),
    sigmoid_clamp_mono_spec.2.2.2.2 (show (-1 : ℝ) ≤ 1 by norm_num)⟩

end

end FastText
